import Mathlib

/-!
# Verification of the inline supplementary-video-player transport core

A shallow embedding of the cross-context transport-and-orchestration layer of
the extension: the chunked transfer protocol, the base64 transport encoding,
the single-slot job dispatcher, the chunk-upload staging map, the stored-result
drain, and the archive-extraction result shaping.

Modelling conventions:
* JS strings are sequences of UTF-16 code units; we model them as `List Nat`
  (one `Nat` per code unit).  Raw bytes (`Uint8Array`) are also `List Nat`
  with every element `< 256`.
* `String.fromCharCode` / `charCodeAt` are the identity between byte lists and
  binary-string code-unit lists, so they disappear in the model.
* Fallible handlers (`throw new Error(...)` / promise rejection) are `Except`.
* `Math.ceil(len / MAX)` with `MAX = 2^25` is exact in JS doubles (division by
  a power of two only shifts the exponent), so it is modelled as the exact
  natural-number ceiling division.
-/

namespace SVP

/-- `Math.ceil(n / m)` on naturals (exact for the power-of-two divisors used
by the code). -/
def ceilDiv (n m : Nat) : Nat := (n + m - 1) / m

/-- `MAX_MESSAGE_SIZE` / `MAX_CHUNK_SIZE` / `MAX_RESPONSE_SIZE`: the 32 MiB
transport ceiling, written `32 * 1024 * 1024` at every call site of the code
(offscreen.js line 12, background lines 246/307/344/395, content.js line 91). -/
def MAX_MESSAGE_SIZE : Nat := 32 * 1024 * 1024

/-- The chunking loop shared by every send site
(offscreen.js `sendResult` lines 42-51/67-76, background
`handleExtractZipProcess` lines 318-327, content.js lines 97-110):

    for (let i = 0; i < totalChunks; i++) {
      const start = i * MAX_CHUNK_SIZE;
      const end = Math.min(start + MAX_CHUNK_SIZE, data.length);
      const chunk = data.substring(start, end);
      ... }

with `totalChunks = Math.ceil(data.length / MAX_CHUNK_SIZE)`. -/
def chunkData {α : Type} (data : List α) (maxSize : Nat) : List (List α) :=
  (List.range (ceilDiv data.length maxSize)).map fun i =>
    let start := i * maxSize
    let stop := min (start + maxSize) data.length
    (data.drop start).take (stop - start)

/-! ### Base64 transport encoding (offscreen.js `uint8ToBase64`,
content.js `base64ToBlobUrl`) -/

/-- Char code of sextet `n` in the standard base64 alphabet
(`A-Z a-z 0-9 + /`). -/
def b64Code (n : Nat) : Nat :=
  if n < 26 then 65 + n
  else if n < 52 then 71 + n
  else if n < 62 then n - 4
  else if n = 62 then 43
  else 47

/-- Sextet value of a base64 alphabet char code (inverse of `b64Code`). -/
def b64Index (c : Nat) : Nat :=
  if 65 ≤ c ∧ c ≤ 90 then c - 65
  else if 97 ≤ c ∧ c ≤ 122 then c - 71
  else if 48 ≤ c ∧ c ≤ 57 then c + 4
  else if c = 43 then 62
  else if c = 47 then 63
  else 0

/-- Modelled from the spec: `btoa`, the platform's binary-to-base64 encoder
(the code calls the browser built-in, which is outside the repository).  The
spec requires a transport-safe symmetric text encoding of raw bytes; this is
the standard RFC 4648 base64 encoding `btoa` performs on a binary string
whose code units are all `< 256`.  `61` is the char code of `'='`. -/
def btoa : List Nat → List Nat
  | [] => []
  | [a] => [b64Code (a / 4), b64Code (a % 4 * 16), 61, 61]
  | [a, b] => [b64Code (a / 4), b64Code (a % 4 * 16 + b / 16),
               b64Code (b % 16 * 4), 61]
  | a :: b :: c :: rest =>
      b64Code (a / 4) :: b64Code (a % 4 * 16 + b / 16) ::
      b64Code (b % 16 * 4 + c / 64) :: b64Code (c % 64) :: btoa rest

/-- Modelled from the spec: `atob`, the platform's base64-to-binary decoder
(browser built-in, outside the repository), on canonical base64 input of the
shape `btoa` emits. -/
def atob : List Nat → List Nat
  | c1 :: c2 :: c3 :: c4 :: rest =>
      if c3 = 61 then [b64Index c1 * 4 + b64Index c2 / 16]
      else if c4 = 61 then
        [b64Index c1 * 4 + b64Index c2 / 16,
         b64Index c2 % 16 * 16 + b64Index c3 / 4]
      else
        (b64Index c1 * 4 + b64Index c2 / 16) ::
        (b64Index c2 % 16 * 16 + b64Index c3 / 4) ::
        (b64Index c3 % 4 * 64 + b64Index c4) :: atob rest
  | _ => []

/-- offscreen.js lines 184-192, `uint8ToBase64`: build the binary string by
concatenating `String.fromCharCode` over 32768-byte slices (the slice loop is
exactly the chunking loop, and `fromCharCode` is the identity on code units),
then `btoa` the result. -/
def uint8ToBase64 (data : List Nat) : List Nat :=
  btoa ((chunkData data 32768).flatten)

/-- content.js lines 54-59 (`base64ToBlobUrl` before the Blob/URL part):
`atob` the base64 string, then read the code units back as bytes
(`charCodeAt` is the identity in the model). -/
def base64ToBytes (base64 : List Nat) : List Nat :=
  atob base64

/-! ### Single-slot job dispatcher (background service worker, part_000) -/

/-- Payload of a worker `{type: 'RESULT'}` message: either `{result}` or
`{error}`.  It carries no job identity (part_000 lines 85-92). -/
inductive WorkerPayload where
  | ok (result : String)
  | err (msg : String)
deriving DecidableEq

/-- How a caller's promise got settled. -/
inductive Settled where
  | resolvedWith (result : String)
  | rejectedError (msg : String)
  | rejectedTimeout
deriving DecidableEq

/-- Dispatcher state: `pendingTranscode` is the single completion slot,
identified here by the id of the caller whose `{resolve, reject}` pair it
currently holds, plus a log of promise settlements in order (a JS promise
settles at most once; caller ids are assumed unique per submission). -/
structure DispState where
  pendingOwner : Option Nat
  settledLog : List (Nat × Settled)
deriving DecidableEq

/-- Initial state: `pendingTranscode = null`. -/
def dispatchInit : DispState := { pendingOwner := none, settledLog := [] }

/-- Events touching the pending slot:
* `submit c` — a handler (`handleTranscode` line 184, `handleExtractZip*`
  lines 206/228/297) runs `pendingTranscode = { resolve, reject }` for caller
  `c`, unconditionally overwriting the slot;
* `workerResult p` — the port receives `{type: 'RESULT', ...}` (lines 85-92);
* `timerFire` — an armed `setTimeout` deadline callback runs (lines 185-190):
  the closure reads the *current* `pendingTranscode`, whichever job armed it. -/
inductive Event where
  | submit (caller : Nat)
  | workerResult (p : WorkerPayload)
  | timerFire
deriving DecidableEq

/-- `RESULT` branch: `message.error` rejects, otherwise resolve. -/
def settleOf : WorkerPayload → Settled
  | .ok r => .resolvedWith r
  | .err e => .rejectedError e

/-- One dispatcher step (the `RESULT` branch guarded by `pendingTranscode`,
and the timeout callback guarded the same way; both then null the slot). -/
def step (s : DispState) : Event → DispState
  | .submit c => { s with pendingOwner := some c }
  | .workerResult p =>
      match s.pendingOwner with
      | some c =>
          { pendingOwner := none, settledLog := s.settledLog ++ [(c, settleOf p)] }
      | none => s
  | .timerFire =>
      match s.pendingOwner with
      | some c =>
          { pendingOwner := none, settledLog := s.settledLog ++ [(c, .rejectedTimeout)] }
      | none => s

/-- Run a sequence of dispatcher events. -/
def run (s : DispState) (es : List Event) : DispState := es.foldl step s

/-- part_000 line 190: deadline armed by `handleTranscode`. -/
def TRANSCODE_TIMEOUT_MS : Nat := 5 * 60 * 1000

/-- part_000 lines 212/234: deadline armed by `handleExtractZip` and
`handleExtractZipData` (simple extraction). -/
def EXTRACT_TIMEOUT_MS : Nat := 5 * 60 * 1000

/-- part_000 line 303: deadline armed by `handleExtractZipProcess`
("10 minutes for large files"). -/
def CHUNKED_EXTRACT_TIMEOUT_MS : Nat := 10 * 60 * 1000

/-! ### Chunk-upload staging (part_000 `chunkStorage`) -/

/-- One `chunkStorage` entry:
`{ chunks: new Array(totalChunks), totalChunks, received }`. -/
structure TransferState where
  chunks : List (Option (List Nat))
  totalChunks : Nat
  received : Nat
deriving DecidableEq

/-- JS array element assignment `arr[i] = x`: in range it overwrites; past
the end it extends the array, leaving holes. -/
def setExtend {α : Type} (l : List (Option α)) (i : Nat) (x : α) : List (Option α) :=
  if i < l.length then l.set i (some x)
  else l ++ List.replicate (i - l.length) none ++ [some x]

/-- part_000 lines 265-276, `handleExtractZipChunk` for one `transferId`:
create the entry on first arrival (`new Array(totalChunks)`, all holes),
store the chunk at its index, bump `received`. -/
def handleExtractZipChunk (st : Option TransferState) (chunkIndex totalChunks : Nat)
    (chunk : List Nat) : TransferState :=
  let storage := match st with
    | some s => s
    | none => { chunks := List.replicate totalChunks none
                totalChunks := totalChunks
                received := 0 }
  { storage with
    chunks := setExtend storage.chunks chunkIndex chunk
    received := storage.received + 1 }

inductive ProcError where
  | transferNotFound
  | incompleteTransfer (received total : Nat)
deriving DecidableEq

instance exceptDecEq {ε α : Type} [DecidableEq ε] [DecidableEq α] :
    DecidableEq (Except ε α) := fun x y =>
  match x, y with
  | .ok a, .ok b =>
      if h : a = b then isTrue (by rw [h]) else isFalse (by simp [h])
  | .error e, .error f =>
      if h : e = f then isTrue (by rw [h]) else isFalse (by simp [h])
  | .ok _, .error _ => isFalse (by simp)
  | .error _, .ok _ => isFalse (by simp)

/-- part_000 lines 278-290, the gate/reassembly prefix of
`handleExtractZipProcess`: an unknown transfer throws "Transfer not found",
`received !== totalChunks` throws "Incomplete transfer", otherwise the slots
are joined in index order (`join('')` renders holes as empty strings) and
the entry is deleted. -/
def processGate (st : Option TransferState) : Except ProcError (List Nat) :=
  match st with
  | none => .error .transferNotFound
  | some storage =>
      if storage.received ≠ storage.totalChunks then
        .error (.incompleteTransfer storage.received storage.totalChunks)
      else
        .ok ((storage.chunks.map (fun c => c.getD [])).flatten)

/-- Fold a sequence of `EXTRACT_ZIP_CHUNK` messages (same `transferId`, same
declared total) into the staging entry, starting from absent. -/
def runChunks (msgs : List (Nat × List Nat)) (total : Nat) : Option TransferState :=
  msgs.foldl (fun st m => some (handleExtractZipChunk st m.1 total m.2)) none

/-! ### Result shaping, thresholds and stored results -/

structure Video where
  name : List Nat
  base64 : List Nat
  mimeType : String
deriving DecidableEq

/-- A job result: `{base64, mimeType}` or `{videos, multiple: true}`. -/
inductive TranscodeResult where
  | single (base64 : List Nat) (mimeType : String)
  | multiple (videos : List Video)
deriving DecidableEq

/-- The `totalSize` computation shared by offscreen.js `sendResult`
(lines 16-22) and part_000 `handleExtractZipProcess` (lines 346-352):
`result.base64.length`, or `videos.reduce((sum, v) => sum + v.base64.length, 0)`. -/
def resultTotalSize : TranscodeResult → Nat
  | .single base64 _ => base64.length
  | .multiple videos => videos.foldl (fun sum v => sum + v.base64.length) 0

/-- What `sendResult` posts: one inline `RESULT`, or the
`RESULT_CHUNKED_START` / `RESULT_CHUNK`* / `RESULT_CHUNKED_END` sequence. -/
inductive SendOutcome where
  | inline (result : TranscodeResult)
  | chunked (isMultipleVideos : Bool) (mimeType : Option String)
            (totalChunks : Nat) (chunks : List (List Nat))
deriving DecidableEq

/-- offscreen.js lines 15-79 `sendResult`: inline iff
`totalSize <= MAX_MESSAGE_SIZE`; otherwise chunk the JSON serialization
(multiple) or the base64 (single).  `stringify` abstracts the platform's
`JSON.stringify`. -/
def sendResult (stringify : TranscodeResult → List Nat) (r : TranscodeResult) :
    SendOutcome :=
  if resultTotalSize r ≤ MAX_MESSAGE_SIZE then .inline r
  else
    match r with
    | .multiple _ =>
        let jsonStr := stringify r
        .chunked true none (ceilDiv jsonStr.length MAX_MESSAGE_SIZE)
          (chunkData jsonStr MAX_MESSAGE_SIZE)
    | .single base64 mime =>
        .chunked false (some mime) (ceilDiv base64.length MAX_MESSAGE_SIZE)
          (chunkData base64 MAX_MESSAGE_SIZE)

/-- One `resultStorage` entry: `{base64, mimeType}` (single video) or
`{json, isMultipleVideos: true}` (multiple). -/
inductive StoredResult where
  | single (base64 : List Nat) (mimeType : String)
  | multi (json : List Nat)
deriving DecidableEq

/-- `stored.isMultipleVideos ? stored.json : stored.base64`. -/
def StoredResult.data : StoredResult → List Nat
  | .single base64 _ => base64
  | .multi json => json

/-- part_000 lines 389-410 `handleGetResultChunk`, acting on the entry stored
under the requested `resultId` (`none` = absent).  Returns `{chunk, isLast}`
together with the entry's state after the call (deleted when `isLast`). -/
def handleGetResultChunk (stored : Option StoredResult) (chunkIndex : Nat) :
    Except String ((List Nat × Bool) × Option StoredResult) :=
  match stored with
  | none => .error "Result not found"
  | some s =>
      let data := s.data
      let start := chunkIndex * MAX_MESSAGE_SIZE
      let stop := min (start + MAX_MESSAGE_SIZE) data.length
      let chunk := (data.drop start).take (stop - start)
      let isLast := data.length ≤ stop
      .ok ((chunk, isLast), if isLast then none else some s)

/-- Pull a sequence of chunk indices, threading the stored entry through. -/
def drainResult (stored : Option StoredResult) :
    List Nat → List (Except String (List Nat × Bool)) × Option StoredResult
  | [] => ([], stored)
  | i :: rest =>
      match handleGetResultChunk stored i with
      | .error e =>
          let r := drainResult stored rest
          (.error e :: r.1, r.2)
      | .ok (out, st1) =>
          let r := drainResult st1 rest
          (.ok out :: r.1, r.2)

/-- Response shape of part_000 `handleExtractZipProcess` lines 343-386:
over-ceiling results are stored (`resultStorage.set`) and answered with
`{chunked: true, totalChunks, totalLength, ...}`; others returned directly. -/
inductive ProcessResponse where
  | direct (r : TranscodeResult)
  | chunkedInfo (isMultipleVideos : Bool) (totalChunks totalLength : Nat)
                (stored : StoredResult)
deriving DecidableEq

/-- part_000 lines 343-386 (after the worker result arrives). -/
def respondWithResult (stringify : TranscodeResult → List Nat)
    (r : TranscodeResult) : ProcessResponse :=
  if MAX_MESSAGE_SIZE < resultTotalSize r then
    match r with
    | .multiple _ =>
        let jsonStr := stringify r
        .chunkedInfo true (ceilDiv jsonStr.length MAX_MESSAGE_SIZE)
          jsonStr.length (.multi jsonStr)
    | .single base64 mime =>
        .chunkedInfo false (ceilDiv base64.length MAX_MESSAGE_SIZE)
          base64.length (.single base64 mime)
  else .direct r

/-- Upload-direction decision. -/
inductive UploadSend where
  | whole (zipBase64 : List Nat)
  | chunked (totalChunks : Nat) (chunks : List (List Nat))
deriving DecidableEq

/-- part_000 lines 306-339 (background → offscreen) and content.js lines
91-110 (content → background): send the payload whole iff
`zipBase64.length <= MAX_CHUNK_SIZE`, else the start/chunk/end sequence with
`Math.ceil(length / MAX_CHUNK_SIZE)` chunks. -/
def uploadDecision (zipBase64 : List Nat) : UploadSend :=
  if MAX_MESSAGE_SIZE < zipBase64.length then
    .chunked (ceilDiv zipBase64.length MAX_MESSAGE_SIZE)
      (chunkData zipBase64 MAX_MESSAGE_SIZE)
  else .whole zipBase64

/-! ### Archive extraction result shaping (offscreen.js `extractZipFromData`) -/

/-- Code-unit list of a string literal. -/
def str (s : String) : List Nat := s.toList.map Char.toNat

/-- offscreen.js line 8. -/
def NATIVE_FORMATS : List (List Nat) :=
  [str "mp4", str "webm", str "ogg", str "m4v"]

/-- offscreen.js line 9. -/
def TRANSCODE_FORMATS : List (List Nat) :=
  [str "avi", str "mkv", str "flv", str "wmv", str "mov"]

/-- `[...NATIVE_FORMATS, ...TRANSCODE_FORMATS]` (offscreen.js line 359). -/
def allFormats : List (List Nat) := NATIVE_FORMATS ++ TRANSCODE_FORMATS

/-- `toLowerCase` on code units (ASCII case mapping; only ASCII letters
matter for the format and hidden-name checks). -/
def jsToLower (s : List Nat) : List Nat :=
  s.map fun c => if 65 ≤ c ∧ c ≤ 90 then c + 32 else c

/-- One JSZip entry as the code consumes it: its key in `zip.files`, the
`dir` flag, and its bytes (`await file.async('uint8array')`).  The archive
reader itself is opaque per the spec; `files` lists the entries in
`Object.keys(zip.files)` order. -/
structure ZipEntry where
  name : List Nat
  dir : Bool
  data : List Nat
deriving DecidableEq

/-- offscreen.js lines 362-374: skip directories and hidden entries
(lowercased name starting with `__macosx` or `.`), keep entries whose
lowercased name ends with `'.' + ext` for some recognized extension. -/
def isRecognizedEntry (e : ZipEntry) : Bool :=
  let lowerName := jsToLower e.name
  !e.dir && !(str "__macosx").isPrefixOf lowerName &&
    !(str ".").isPrefixOf lowerName &&
    (allFormats.any fun ext => (str "." ++ ext).isSuffixOf lowerName)

/-- `a.name.localeCompare(b.name) <= 0` modelled as code-unit lexicographic
comparison. -/
def nameLe : List Nat → List Nat → Bool
  | [], _ => true
  | _ :: _, [] => false
  | a :: as, b :: bs =>
      if a < b then true else if b < a then false else nameLe as bs

/-- `videoFiles.sort((a, b) => a.name.localeCompare(b.name))`
(offscreen.js line 381), as insertion sort by `nameLe`. -/
def insertByName (x : ZipEntry) : List ZipEntry → List ZipEntry
  | [] => [x]
  | y :: ys => if nameLe x.name y.name then x :: y :: ys else y :: insertByName x ys

def sortByName (l : List ZipEntry) : List ZipEntry := l.foldr insertByName []

/-- `fileName.split('.').pop().toLowerCase()` (offscreen.js line 398);
`46` is `'.'`. -/
def lastExt (name : List Nat) : List Nat :=
  jsToLower (((name.splitOn 46).getLast?).getD [])

/-- offscreen.js lines 384-389: `mimeTypes[ext] || 'video/mp4'`. -/
def mimeFor (ext : List Nat) : String :=
  if ext = str "mp4" then "video/mp4"
  else if ext = str "webm" then "video/webm"
  else if ext = str "ogg" then "video/ogg"
  else if ext = str "m4v" then "video/mp4"
  else "video/mp4"

/-- offscreen.js lines 393-447, per-entry body: native formats are base64
encoded directly; others run through the opaque conversion engine
(`ffmpegRun` abstracts the FFmpeg exec + read of `output_i.mp4`) and get
mime `'video/mp4'`. -/
def processEntry (ffmpegRun : List Nat → List Nat) (e : ZipEntry) : Video :=
  let ext := lastExt e.name
  if NATIVE_FORMATS.contains ext then
    { name := e.name, base64 := uint8ToBase64 e.data, mimeType := mimeFor ext }
  else
    { name := e.name, base64 := uint8ToBase64 (ffmpegRun e.data),
      mimeType := "video/mp4" }

/-- offscreen.js lines 335-464 `extractZipFromData`, result shaping: filter
recognized entries in archive order, error if none, sort by name, process
each, and collapse a one-element result list to the single-media shape
(`results.length === 1`). -/
def extractZipFromData (ffmpegRun : List Nat → List Nat)
    (files : List ZipEntry) : Except String TranscodeResult :=
  let videoFiles := files.filter isRecognizedEntry
  if videoFiles.isEmpty then .error "No video file found in ZIP"
  else
    let results := (sortByName videoFiles).map (processEntry ffmpegRun)
    match results with
    | [r] => .ok (.single r.base64 r.mimeType)
    | rs => .ok (.multiple rs)

/-! ## Theorems -/

/-- Every chunk of `chunkData` is just `take maxSize` after the drop: the
`min`/subtraction bookkeeping of the source is absorbed by `take` clamping. -/
theorem chunkData_eq_take {α : Type} (data : List α) (m : Nat) :
    chunkData data m =
      (List.range (ceilDiv data.length m)).map fun i => (data.drop (i * m)).take m := by
  unfold chunkData
  refine List.map_congr_left fun i _ => ?_
  dsimp only
  by_cases h : i * m + m ≤ data.length
  · have hmin : min (i * m + m) data.length - i * m = m := by omega
    rw [hmin]
  · have hmin : min (i * m + m) data.length = data.length := by omega
    rw [hmin]
    rw [List.take_of_length_le (le_of_eq (List.length_drop (i * m) data)),
        List.take_of_length_le (by rw [List.length_drop]; omega)]

theorem ceilDiv_zero (m : Nat) : ceilDiv 0 m = 0 := by
  unfold ceilDiv
  rcases Nat.eq_zero_or_pos m with h | h
  · subst h; rfl
  · exact Nat.div_eq_of_lt (by omega)

theorem ceilDiv_step (n m : Nat) (hm : 1 ≤ m) (hn : 1 ≤ n) :
    ceilDiv n m = ceilDiv (n - m) m + 1 := by
  unfold ceilDiv
  by_cases h : m ≤ n
  · have hrw : n + m - 1 = (n - m) + m - 1 + m := by omega
    rw [hrw, Nat.add_div_right _ hm]
  · have h1 : n - m = 0 := by omega
    rw [h1]
    have h2 : (0 + m - 1) / m = 0 := Nat.div_eq_of_lt (by omega)
    have h3 : (n + m - 1) / m = 1 :=
      Nat.div_eq_of_lt_le (by omega) (by omega)
    omega

theorem ceilDiv_le_mul (n m : Nat) (hm : 1 ≤ m) : n ≤ ceilDiv n m * m := by
  unfold ceilDiv
  have h1 := Nat.div_add_mod (n + m - 1) m
  have h2 := Nat.mod_lt (n + m - 1) (show 0 < m by omega)
  rw [Nat.mul_comm] at h1
  generalize (n + m - 1) / m * m = t at h1 ⊢
  generalize (n + m - 1) % m = r at h1 h2
  omega

theorem lt_ceilDiv_pred_mul (n m : Nat) (hm : 1 ≤ m) (hn : 1 ≤ n) :
    (ceilDiv n m - 1) * m < n := by
  unfold ceilDiv
  have h1 := Nat.div_add_mod (n + m - 1) m
  have h2 := Nat.mod_lt (n + m - 1) (show 0 < m by omega)
  have hq1 : 1 ≤ (n + m - 1) / m := by
    rw [Nat.le_div_iff_mul_le (show 0 < m by omega)]
    omega
  rw [Nat.mul_comm] at h1
  rw [Nat.sub_mul, Nat.one_mul]
  generalize hqt : (n + m - 1) / m * m = t at h1 ⊢
  generalize (n + m - 1) % m = r at h1 h2
  have hmt : m ≤ t := by
    rw [← hqt]
    calc m = 1 * m := by omega
    _ ≤ (n + m - 1) / m * m := Nat.mul_le_mul_right m hq1
  omega

/-- One unrolling of the chunk loop: the first chunk is `take maxSize`, the
rest chunk the remainder. -/
theorem chunkData_cons {α : Type} (data : List α) (m : Nat) (hm : 1 ≤ m)
    (hn : 1 ≤ data.length) :
    chunkData data m = data.take m :: chunkData (data.drop m) m := by
  rw [chunkData_eq_take, chunkData_eq_take]
  have hstep := ceilDiv_step data.length m hm hn
  have hdrop : (data.drop m).length = data.length - m := List.length_drop _ _
  rw [hdrop, hstep, List.range_succ_eq_map, List.map_cons]
  congr 1
  · simp
  · rw [List.map_map]
    refine List.map_congr_left fun i _ => ?_
    simp only [Function.comp_apply, List.drop_drop]
    rw [Nat.succ_mul, Nat.add_comm]

/-- Reassembly: concatenating the chunks in index order reproduces the data. -/
theorem join_chunkData {α : Type} (data : List α) (m : Nat) (hm : 1 ≤ m) :
    (chunkData data m).flatten = data := by
  generalize hc : ceilDiv data.length m = c
  induction c generalizing data with
  | zero =>
    have hlen : data.length = 0 := by
      by_contra h
      have := ceilDiv_step data.length m hm (by omega)
      omega
    rw [List.length_eq_zero] at hlen
    subst hlen
    simp [chunkData, ceilDiv_zero]
  | succ k ih =>
    have hn : 1 ≤ data.length := by
      by_contra h
      have h0 : data.length = 0 := by omega
      rw [h0, ceilDiv_zero] at hc
      omega
    rw [chunkData_cons data m hm hn, List.flatten_cons]
    have hstep := ceilDiv_step data.length m hm hn
    have hrest : ceilDiv (data.drop m).length m = k := by
      rw [List.length_drop]
      omega
    rw [ih _ hrest]
    exact List.take_append_drop m data

theorem b64Index_b64Code : ∀ n, n < 64 → b64Index (b64Code n) = n := by decide

theorem b64Code_ne_pad : ∀ n, n < 64 → b64Code n ≠ 61 := by decide

/-- Base64 round trip on the binary string: decoding the encoding of any
byte sequence returns the sequence. -/
theorem atob_btoa (data : List Nat) (h : ∀ b ∈ data, b < 256) :
    atob (btoa data) = data := by
  induction data using btoa.induct with
  | case1 => rfl
  | case2 a =>
    have ha : a < 256 := h a (by simp)
    simp only [btoa, atob, if_pos]
    rw [b64Index_b64Code _ (by omega), b64Index_b64Code _ (by omega)]
    simp only [List.cons.injEq, and_true]
    omega
  | case3 a b =>
    have ha : a < 256 := h a (by simp)
    have hb : b < 256 := h b (by simp)
    simp only [btoa, atob]
    rw [if_neg (b64Code_ne_pad _ (by omega)), if_true]
    rw [b64Index_b64Code _ (by omega), b64Index_b64Code _ (by omega),
        b64Index_b64Code _ (by omega)]
    simp only [List.cons.injEq, and_true]
    omega
  | case4 a b c rest ih =>
    have ha : a < 256 := h a (by simp)
    have hb : b < 256 := h b (by simp)
    have hc : c < 256 := h c (by simp)
    simp only [btoa, atob]
    rw [if_neg (b64Code_ne_pad _ (by omega)), if_neg (b64Code_ne_pad _ (by omega))]
    rw [b64Index_b64Code _ (by omega), b64Index_b64Code _ (by omega),
        b64Index_b64Code _ (by omega), b64Index_b64Code _ (by omega)]
    rw [ih (fun x hx => h x (by simp [hx]))]
    simp only [List.cons.injEq, and_true]
    omega

/-- C2, chunking round-trip: for every string `data` and every chunk size
`max ≥ 1` the chunker produces exactly `ceil(len/max)` chunks (the count is
pinned down as the exact ceiling by the two bounds), with
`chunk[i] = data[i*max : min((i+1)*max, len)]`, and concatenating the chunks
in index order reproduces `data` — for `max` below and above `len` alike. -/
theorem chunking_round_trip {α : Type} (data : List α) (max : Nat)
    (hmax : 1 ≤ max) :
    (chunkData data max).length = ceilDiv data.length max ∧
    data.length ≤ ceilDiv data.length max * max ∧
    (1 ≤ data.length → (ceilDiv data.length max - 1) * max < data.length) ∧
    (data.length = 0 → ceilDiv data.length max = 0) ∧
    (∀ i, i < ceilDiv data.length max →
      (chunkData data max)[i]? =
        some ((data.drop (i * max)).take
          (min ((i + 1) * max) data.length - i * max))) ∧
    (chunkData data max).flatten = data := by
  refine ⟨by simp [chunkData], ceilDiv_le_mul _ _ hmax,
    fun h => lt_ceilDiv_pred_mul _ _ hmax h,
    fun h => by rw [h]; exact ceilDiv_zero max, fun i hi => ?_,
    join_chunkData data max hmax⟩
  unfold chunkData
  rw [List.getElem?_map, List.getElem?_range hi]
  have harith : (i + 1) * max = i * max + max := by ring
  simp [harith]

theorem chunking_round_trip_witness :
    ((1 ≤ 2 ∧ (chunkData [10, 20, 30] 2).flatten = [10, 20, 30]) ∧
      (chunkData [10, 20, 30] 2).length = ceilDiv 3 2) ∧
    (1 ≤ 7 ∧ (chunkData [10, 20, 30] 7).flatten = [10, 20, 30]) := by
  refine ⟨⟨⟨by decide, (chunking_round_trip [10, 20, 30] 2 (by decide)).2.2.2.2.2⟩, ?_⟩,
    by decide, (chunking_round_trip [10, 20, 30] 7 (by decide)).2.2.2.2.2⟩
  rw [(chunking_round_trip [10, 20, 30] 2 (by decide)).1]
  decide

/-- C7, binary-to-text encoding round-trip: for every byte sequence,
including zero bytes and bytes `≥ 0x80`, decoding the transport-safe
encoding (`base64ToBlobUrl`'s `atob` + code-unit read) of the encoding
(`uint8ToBase64`) yields the original bytes, independently of chunking. -/
theorem encode_decode_round_trip (bytes : List Nat) (h : ∀ b ∈ bytes, b < 256) :
    base64ToBytes (uint8ToBase64 bytes) = bytes := by
  unfold uint8ToBase64 base64ToBytes
  rw [join_chunkData bytes 32768 (by norm_num)]
  exact atob_btoa bytes h

theorem encode_decode_round_trip_witness :
    (∀ b ∈ [0, 128, 255, 7, 66], b < 256) ∧
    base64ToBytes (uint8ToBase64 [0, 128, 255, 7, 66]) = [0, 128, 255, 7, 66] :=
  ⟨by decide, encode_decode_round_trip _ (by decide)⟩

/-- C4, threshold boundary: a result whose encoded size equals the 32 MiB
transport ceiling is sent inline in one message; a result one unit over the
ceiling goes through the chunked path with a declared chunk count of exactly
`ceil(size / ceiling)` (pinned down as the exact ceiling by the two bounds,
and equal to `2` at one-over); the same at-or-below-goes-whole rule governs
the background's process response and the upload direction independently. -/
theorem threshold_boundary (stringify : TranscodeResult → List Nat)
    (base64 zip : List Nat) (mime : String) :
    (base64.length = MAX_MESSAGE_SIZE →
      sendResult stringify (.single base64 mime) = .inline (.single base64 mime)) ∧
    (base64.length = MAX_MESSAGE_SIZE + 1 →
      sendResult stringify (.single base64 mime) =
        .chunked false (some mime) 2 (chunkData base64 MAX_MESSAGE_SIZE)) ∧
    (MAX_MESSAGE_SIZE < base64.length →
      sendResult stringify (.single base64 mime) =
        .chunked false (some mime) (ceilDiv base64.length MAX_MESSAGE_SIZE)
          (chunkData base64 MAX_MESSAGE_SIZE) ∧
      base64.length ≤ ceilDiv base64.length MAX_MESSAGE_SIZE * MAX_MESSAGE_SIZE ∧
      (ceilDiv base64.length MAX_MESSAGE_SIZE - 1) * MAX_MESSAGE_SIZE < base64.length) ∧
    (base64.length = MAX_MESSAGE_SIZE →
      respondWithResult stringify (.single base64 mime) = .direct (.single base64 mime)) ∧
    (MAX_MESSAGE_SIZE < base64.length →
      respondWithResult stringify (.single base64 mime) =
        .chunkedInfo false (ceilDiv base64.length MAX_MESSAGE_SIZE) base64.length
          (.single base64 mime)) ∧
    (zip.length ≤ MAX_MESSAGE_SIZE → uploadDecision zip = .whole zip) ∧
    (MAX_MESSAGE_SIZE < zip.length →
      uploadDecision zip =
        .chunked (ceilDiv zip.length MAX_MESSAGE_SIZE)
          (chunkData zip MAX_MESSAGE_SIZE)) ∧
    (∀ vids, resultTotalSize (.multiple vids) ≤ MAX_MESSAGE_SIZE →
      sendResult stringify (.multiple vids) = .inline (.multiple vids)) ∧
    (∀ vids, MAX_MESSAGE_SIZE < resultTotalSize (.multiple vids) →
      sendResult stringify (.multiple vids) =
        .chunked true none
          (ceilDiv (stringify (.multiple vids)).length MAX_MESSAGE_SIZE)
          (chunkData (stringify (.multiple vids)) MAX_MESSAGE_SIZE)) := by
  have hmax : (1 : Nat) ≤ MAX_MESSAGE_SIZE := by unfold MAX_MESSAGE_SIZE; norm_num
  refine ⟨fun h => ?_, fun h => ?_, fun h => ?_, fun h => ?_, fun h => ?_,
    fun h => ?_, fun h => ?_, fun vids h => ?_, fun vids h => ?_⟩
  · simp [sendResult, resultTotalSize, h]
  · have h2 : ceilDiv (MAX_MESSAGE_SIZE + 1) MAX_MESSAGE_SIZE = 2 := by
      unfold ceilDiv MAX_MESSAGE_SIZE
      norm_num
    simp [sendResult, resultTotalSize, h, h2]
  · exact ⟨by simp [sendResult, resultTotalSize, Nat.not_le.mpr h],
      ceilDiv_le_mul _ _ hmax, lt_ceilDiv_pred_mul _ _ hmax (by omega)⟩
  · simp [respondWithResult, resultTotalSize, h]
  · simp [respondWithResult, resultTotalSize, h]
  · simp [uploadDecision, Nat.not_lt.mpr h]
  · simp [uploadDecision, h]
  · simp [sendResult, h]
  · simp [sendResult, Nat.not_le.mpr h]

theorem threshold_boundary_witness :
    ((List.replicate MAX_MESSAGE_SIZE 0).length = MAX_MESSAGE_SIZE ∧
      sendResult (fun _ => []) (.single (List.replicate MAX_MESSAGE_SIZE 0) "video/mp4") =
        .inline (.single (List.replicate MAX_MESSAGE_SIZE 0) "video/mp4")) ∧
    ((List.replicate (MAX_MESSAGE_SIZE + 1) 0).length = MAX_MESSAGE_SIZE + 1 ∧
      sendResult (fun _ => []) (.single (List.replicate (MAX_MESSAGE_SIZE + 1) 0) "video/mp4") =
        .chunked false (some "video/mp4") 2
          (chunkData (List.replicate (MAX_MESSAGE_SIZE + 1) 0) MAX_MESSAGE_SIZE)) ∧
    ([0].length ≤ MAX_MESSAGE_SIZE ∧ uploadDecision [0] = .whole [0]) :=
  ⟨⟨List.length_replicate _ _,
      (threshold_boundary (fun _ => []) (List.replicate MAX_MESSAGE_SIZE 0) [0]
        "video/mp4").1 (List.length_replicate _ _)⟩,
    ⟨List.length_replicate _ _,
      (threshold_boundary (fun _ => []) (List.replicate (MAX_MESSAGE_SIZE + 1) 0) [0]
        "video/mp4").2.1 (List.length_replicate _ _)⟩,
    by unfold MAX_MESSAGE_SIZE; norm_num,
    (threshold_boundary (fun _ => []) [] [0] "").2.2.2.2.2.1
      (by unfold MAX_MESSAGE_SIZE; norm_num)⟩

/-- C5, timeout semantics: when a deadline callback fires while a job is
pending, that job is failed with the timeout rejection and the pending slot
is cleared; a worker result arriving when the slot is empty leaves the state
entirely unchanged (silently dropped — nothing settles, nothing crashes:
`step` is total).  The deadlines armed are 5 minutes (300000 ms) for
transcode and simple extraction and 10 minutes (600000 ms) for the
chunked-extraction path. -/
theorem timeout_semantics (s s2 : DispState) (c : Nat) (p : WorkerPayload)
    (hc : s.pendingOwner = some c) (h2 : s2.pendingOwner = none) :
    (step s .timerFire).pendingOwner = none ∧
    (step s .timerFire).settledLog = s.settledLog ++ [(c, .rejectedTimeout)] ∧
    step s2 (.workerResult p) = s2 ∧
    TRANSCODE_TIMEOUT_MS = 300000 ∧ EXTRACT_TIMEOUT_MS = 300000 ∧
    CHUNKED_EXTRACT_TIMEOUT_MS = 600000 := by
  refine ⟨?_, ?_, ?_, rfl, rfl, rfl⟩ <;> simp [step, hc, h2]

theorem timeout_semantics_witness :
    (run dispatchInit [.submit 7, .timerFire]).pendingOwner = none ∧
    (run dispatchInit [.submit 7, .timerFire]).settledLog = [(7, .rejectedTimeout)] ∧
    step (run dispatchInit [.submit 7, .timerFire]) (.workerResult (.ok "late")) =
      run dispatchInit [.submit 7, .timerFire] := by
  have h := timeout_semantics (run dispatchInit [.submit 7])
    (run dispatchInit [.submit 7, .timerFire]) 7 (.ok "late") (by decide) (by decide)
  exact ⟨h.1, h.2.1, h.2.2.1⟩

/-- C1 counterexample: the claim "B's caller is never resolved with A's
result" fails on the code.  Run: caller 0 (job A) submits, caller 1 (job B)
submits while A is pending (overwriting the slot), then the worker posts the
`RESULT` of A's run.  The `RESULT` branch (part_000 lines 85-92) carries no
job identity and settles whoever owns the slot: caller 1 is resolved with
A's payload, while caller 0 is never settled at all. -/
theorem single_slot_counterexample :
    (run dispatchInit
        [.submit 0, .submit 1, .workerResult (.ok "payload-of-A")]).settledLog
      = [(1, .resolvedWith "payload-of-A")] ∧
    (0 : Nat) ∉ ((run dispatchInit
        [.submit 0, .submit 1, .workerResult (.ok "payload-of-A")]).settledLog.map
          Prod.fst) := by
  decide

/-- C1 amended: once job A's slot entry is overwritten by a later
submission, A's caller is never settled by any subsequent event — not by a
completion and not even by its own timeout (the timeout callback reads the
current slot), so it hangs forever; and a `RESULT` or timer event always
settles the slot's current occupant (B), regardless of which job produced
it.  It is not true that B's caller resolves only via B's own completion or
timeout, nor that A's caller is failed by A's own timeout. -/
theorem single_slot_handoff_amended (s : DispState) (a : Nat) (es : List Event)
    (hslot : s.pendingOwner ≠ some a)
    (hlog : a ∉ s.settledLog.map Prod.fst)
    (hsub : Event.submit a ∉ es) :
    (a ∉ (run s es).settledLog.map Prod.fst ∧ (run s es).pendingOwner ≠ some a) ∧
    (∀ (s' : DispState) (b : Nat) (p : WorkerPayload), s'.pendingOwner = some b →
      (step s' (.workerResult p)).settledLog = s'.settledLog ++ [(b, settleOf p)] ∧
      (step s' .timerFire).settledLog = s'.settledLog ++ [(b, .rejectedTimeout)]) := by
  refine ⟨?_, fun s' b p hb => ⟨by simp [step, hb], by simp [step, hb]⟩⟩
  induction es generalizing s with
  | nil => exact ⟨hlog, hslot⟩
  | cons e rest ih =>
    have hsub' : Event.submit a ∉ rest := fun hmem => hsub (List.mem_cons_of_mem _ hmem)
    have hstep : (step s e).pendingOwner ≠ some a ∧
        a ∉ (step s e).settledLog.map Prod.fst := by
      cases e with
      | submit c =>
        have hca : c ≠ a := by
          intro hca
          exact hsub (by simp [hca, List.mem_cons])
        exact ⟨by simp [step, hca], by simpa [step] using hlog⟩
      | workerResult p =>
        cases hown : s.pendingOwner with
        | none => exact ⟨by simp [step, hown], by simpa [step, hown] using hlog⟩
        | some c =>
          have hca : c ≠ a := fun hca => hslot (by rw [hown, hca])
          refine ⟨by simp [step, hown], ?_⟩
          simp only [step, hown, List.map_append, List.mem_append]
          rintro (hmem | hmem)
          · exact hlog hmem
          · simp at hmem
            exact hca hmem.symm
      | timerFire =>
        cases hown : s.pendingOwner with
        | none => exact ⟨by simp [step, hown], by simpa [step, hown] using hlog⟩
        | some c =>
          have hca : c ≠ a := fun hca => hslot (by rw [hown, hca])
          refine ⟨by simp [step, hown], ?_⟩
          simp only [step, hown, List.map_append, List.mem_append]
          rintro (hmem | hmem)
          · exact hlog hmem
          · simp at hmem
            exact hca hmem.symm
    exact ih (step s e) hstep.1 hstep.2 hsub'

theorem single_slot_handoff_amended_witness :
    ((run (run dispatchInit [.submit 0, .submit 1])
        [.workerResult (.ok "payload-of-A"), .timerFire]).settledLog.map Prod.fst
      = [1] ∧
     (0 : Nat) ∉ ((run (run dispatchInit [.submit 0, .submit 1])
        [.workerResult (.ok "payload-of-A"), .timerFire]).settledLog.map Prod.fst)) := by
  have h := single_slot_handoff_amended (run dispatchInit [.submit 0, .submit 1]) 0
    [.workerResult (.ok "payload-of-A"), .timerFire]
    (by decide) (by decide) (by decide)
  exact ⟨by decide, h.1.1⟩

theorem setExtend_length {α : Type} (l : List (Option α)) (i : Nat) (x : α)
    (h : i < l.length) : (setExtend l i x).length = l.length := by
  simp [setExtend, h]

theorem getElem?_setExtend {α : Type} (l : List (Option α)) (i j : Nat) (x : α)
    (h : i < l.length) :
    (setExtend l i x)[j]? = if j = i then some (some x) else l[j]? := by
  simp only [setExtend, if_pos h]
  by_cases hji : j = i
  · subst hji
    rw [if_pos rfl, List.getElem?_set_self h]
  · rw [if_neg hji, List.getElem?_set_ne (fun hij => hji hij.symm)]

theorem lookup_none_of_not_mem_keys {β : Type} (k : Nat) (l : List (Nat × β))
    (h : k ∉ l.map Prod.fst) : l.lookup k = none := by
  induction l with
  | nil => rfl
  | cons p rest ih =>
    simp only [List.map_cons, List.mem_cons, not_or] at h
    have hne : (k == p.1) = false := beq_eq_false_iff_ne.mpr h.1
    rw [List.lookup_cons]
    simp only [hne]
    exact ih h.2

theorem mem_of_lookup_some {β : Type} (l : List (Nat × β)) (i : Nat) (v : β)
    (h : l.lookup i = some v) : (i, v) ∈ l := by
  induction l with
  | nil => simp at h
  | cons p rest ih =>
    rw [List.lookup_cons] at h
    by_cases hik : i = p.1
    · subst hik
      simp only [beq_self_eq_true] at h
      obtain ⟨k, w⟩ := p
      simp only at h
      cases h
      exact List.mem_cons_self _ _
    · have hne : (i == p.1) = false := beq_eq_false_iff_ne.mpr hik
      simp only [hne] at h
      exact List.mem_cons_of_mem _ (ih h)

theorem lookup_some_of_mem_keys {β : Type} (l : List (Nat × β)) (i : Nat)
    (h : i ∈ l.map Prod.fst) : ∃ v, l.lookup i = some v := by
  induction l with
  | nil => simp at h
  | cons p rest ih =>
    rw [List.lookup_cons]
    by_cases hik : i = p.1
    · exact ⟨p.2, by simp [hik]⟩
    · have hne : (i == p.1) = false := beq_eq_false_iff_ne.mpr hik
      simp only [hne]
      refine ih ?_
      simp only [List.map_cons, List.mem_cons] at h
      exact h.resolve_left hik

theorem lookup_some_of_mem_nodup {β : Type} (l : List (Nat × β)) (i : Nat) (v : β)
    (hnd : (l.map Prod.fst).Nodup) (h : (i, v) ∈ l) : l.lookup i = some v := by
  induction l with
  | nil => simp at h
  | cons p rest ih =>
    simp only [List.map_cons, List.nodup_cons] at hnd
    rcases List.mem_cons.mp h with heq | hmem
    · subst heq
      exact List.lookup_cons_self
    · have hik : i ≠ p.1 := by
        intro hik
        exact hnd.1 (hik ▸ (List.mem_map_of_mem Prod.fst hmem))
      have hne : (i == p.1) = false := beq_eq_false_iff_ne.mpr hik
      rw [List.lookup_cons]
      simp only [hne]
      exact ih hnd.2 hmem

/-- With distinct keys, `lookup` is invariant under permutation. -/
theorem lookup_eq_of_perm {β : Type} (l1 l2 : List (Nat × β)) (i : Nat)
    (hp : List.Perm l1 l2) (hnd : (l1.map Prod.fst).Nodup) :
    l1.lookup i = l2.lookup i := by
  have hnd2 : (l2.map Prod.fst).Nodup := ((hp.map Prod.fst).nodup_iff).mp hnd
  cases hlu : l1.lookup i with
  | some v =>
    exact (lookup_some_of_mem_nodup l2 i v hnd2 (hp.mem_iff.mp
      (mem_of_lookup_some l1 i v hlu))).symm
  | none =>
    cases hlu2 : l2.lookup i with
    | none => rfl
    | some w =>
      exfalso
      have := lookup_some_of_mem_nodup l1 i w hnd (hp.mem_iff.mpr
        (mem_of_lookup_some l2 i w hlu2))
      rw [hlu] at this
      cases this

/-- Per-index characterization of the staged slot array after a fold of
in-range, distinct-index chunk writes. -/
theorem slots_after (msgs : List (Nat × List Nat)) (cs : List (Option (List Nat)))
    (hkeys : ∀ p ∈ msgs, p.1 < cs.length)
    (hnd : (msgs.map Prod.fst).Nodup) (i : Nat) :
    (msgs.foldl (fun l m => setExtend l m.1 m.2) cs)[i]? =
      match msgs.lookup i with
      | some v => some (some v)
      | none => cs[i]? := by
  induction msgs generalizing cs with
  | nil => rfl
  | cons m rest ih =>
    obtain ⟨k, v⟩ := m
    have hk : k < cs.length := hkeys (k, v) (List.mem_cons_self _ _)
    have hlen : (setExtend cs k v).length = cs.length := setExtend_length _ _ _ hk
    have hkeys' : ∀ p ∈ rest, p.1 < (setExtend cs k v).length := by
      rw [hlen]
      exact fun p hp => hkeys p (List.mem_cons_of_mem _ hp)
    simp only [List.map_cons, List.nodup_cons] at hnd
    rw [List.foldl_cons, ih _ hkeys' hnd.2]
    by_cases hik : i = k
    · subst hik
      rw [lookup_none_of_not_mem_keys _ _ hnd.1, List.lookup_cons_self,
        getElem?_setExtend _ _ _ _ hk, if_pos rfl]
    · have hne : (i == k) = false := beq_eq_false_iff_ne.mpr hik
      rw [List.lookup_cons]
      simp only [hne]
      cases rest.lookup i with
      | some w => rfl
      | none => rw [getElem?_setExtend _ _ _ _ hk, if_neg hik]

theorem foldl_some {β : Type} (g : Option β → Nat × List Nat → β)
    (l : List (Nat × List Nat)) (s : β) :
    l.foldl (fun st m => some (g st m)) (some s) =
      some (l.foldl (fun s m => g (some s) m) s) := by
  induction l generalizing s with
  | nil => rfl
  | cons m rest ih => exact ih _

theorem foldl_handle (rest : List (Nat × List Nat)) (total : Nat) (s : TransferState) :
    rest.foldl (fun s m => handleExtractZipChunk (some s) m.1 total m.2) s =
      { chunks := rest.foldl (fun l m => setExtend l m.1 m.2) s.chunks
        totalChunks := s.totalChunks
        received := s.received + rest.length } := by
  induction rest generalizing s with
  | nil => simp
  | cons m rest ih =>
    rw [List.foldl_cons, ih]
    simp only [handleExtractZipChunk, List.foldl_cons, List.length_cons,
      TransferState.mk.injEq]
    exact ⟨trivial, trivial, by omega⟩

/-- `runChunks` on a nonempty message list, characterized. -/
theorem runChunks_cons (m0 : Nat × List Nat) (rest : List (Nat × List Nat))
    (total : Nat) :
    runChunks (m0 :: rest) total = some
      { chunks := (m0 :: rest).foldl (fun l m => setExtend l m.1 m.2)
                    (List.replicate total none)
        totalChunks := total
        received := rest.length + 1 } := by
  unfold runChunks
  rw [List.foldl_cons,
    foldl_some (fun st m => handleExtractZipChunk st m.1 total m.2) rest _,
    foldl_handle]
  simp [handleExtractZipChunk, Nat.add_comm]

/-- C3, completeness gate: a process request for an existing transfer with
`received < totalChunks` fails with the incomplete-transfer error; a process
request issued after exactly the declared `totalChunks` distinct-index chunk
messages (indices covering `0 .. totalChunks-1`, in any arrival order)
succeeds; and arrival order never affects the outcome — any permutation of
the same chunk messages produces the identical staged entry, hence the
identical process result. -/
theorem completeness_gate (storage : TransferState)
    (msgs msgs2 : List (Nat × List Nat)) (total : Nat)
    (htot : 1 ≤ total)
    (hlt : storage.received < storage.totalChunks)
    (hperm : List.Perm (msgs.map Prod.fst) (List.range total))
    (hperm2 : List.Perm msgs2 msgs) :
    processGate (some storage) =
      .error (.incompleteTransfer storage.received storage.totalChunks) ∧
    (∃ out, processGate (runChunks msgs total) = .ok out) ∧
    runChunks msgs2 total = runChunks msgs total := by
  have hlen : msgs.length = total := by
    have h := hperm.length_eq
    simpa using h
  have hkeys : ∀ p ∈ msgs, p.1 < total := fun p hp =>
    List.mem_range.mp (hperm.mem_iff.mp (List.mem_map_of_mem Prod.fst hp))
  have hnd : (msgs.map Prod.fst).Nodup := hperm.nodup_iff.mpr (List.nodup_range total)
  have hlen2 : msgs2.length = msgs.length := hperm2.length_eq
  have hkeys2 : ∀ p ∈ msgs2, p.1 < total := fun p hp =>
    hkeys p (hperm2.mem_iff.mp hp)
  have hnd2 : (msgs2.map Prod.fst).Nodup :=
    ((hperm2.map Prod.fst).nodup_iff).mpr hnd
  obtain ⟨m0, rest, rfl⟩ : ∃ m0 rest, msgs = m0 :: rest := by
    cases msgs with
    | nil => simp at hlen; omega
    | cons a l => exact ⟨a, l, rfl⟩
  refine ⟨?_, ?_, ?_⟩
  · simp only [processGate]
    rw [if_pos (Nat.ne_of_lt hlt)]
  · rw [runChunks_cons]
    simp only [processGate]
    rw [if_neg (by simp only [List.length_cons] at hlen; omega)]
    exact ⟨_, rfl⟩
  · obtain ⟨m2, rest2, rfl⟩ : ∃ m2 rest2, msgs2 = m2 :: rest2 := by
      cases msgs2 with
      | nil => simp [List.length_cons] at hlen2
      | cons a l => exact ⟨a, l, rfl⟩
    rw [runChunks_cons, runChunks_cons]
    have hrepl : (List.replicate total (none : Option (List Nat))).length = total :=
      List.length_replicate _ _
    have hchunks :
        (m2 :: rest2).foldl (fun l m => setExtend l m.1 m.2)
            (List.replicate total none) =
          (m0 :: rest).foldl (fun l m => setExtend l m.1 m.2)
            (List.replicate total none) := by
      apply List.ext_getElem?
      intro i
      rw [slots_after _ _ (fun p hp => lt_of_lt_of_eq (hkeys2 p hp) hrepl.symm) hnd2 i,
        slots_after _ _ (fun p hp => lt_of_lt_of_eq (hkeys p hp) hrepl.symm) hnd i,
        lookup_eq_of_perm _ _ i hperm2 hnd2]
    have hrecv : rest2.length = rest.length := by
      simp only [List.length_cons] at hlen2
      omega
    rw [hchunks, hrecv]

theorem completeness_gate_witness :
    (processGate (some { chunks := [none, none], totalChunks := 2, received := 1 }) =
      .error (.incompleteTransfer 1 2)) ∧
    (∃ out, processGate (runChunks [(1, [5, 6]), (0, [1, 2])] 2) = .ok out) ∧
    runChunks [(0, [1, 2]), (1, [5, 6])] 2 = runChunks [(1, [5, 6]), (0, [1, 2])] 2 ∧
    processGate (runChunks [(1, [5, 6]), (0, [1, 2])] 2) = .ok [1, 2, 5, 6] := by
  have h := completeness_gate { chunks := [none, none], totalChunks := 2, received := 1 }
    [(1, [5, 6]), (0, [1, 2])] [(0, [1, 2]), (1, [5, 6])] 2
    (by decide) (by decide) (by decide) (by decide)
  exact ⟨h.1, h.2.1, h.2.2, by decide⟩

theorem take_min_norm {α : Type} (data : List α) (st m : Nat) :
    (data.drop st).take (min (st + m) data.length - st) = (data.drop st).take m := by
  by_cases h : st + m ≤ data.length
  · have hmin : min (st + m) data.length - st = m := by omega
    rw [hmin]
  · have hmin : min (st + m) data.length = data.length := by omega
    rw [hmin]
    rw [List.take_of_length_le (le_of_eq (List.length_drop st data)),
        List.take_of_length_le (by rw [List.length_drop]; omega)]

/-- A pull strictly inside the stored data: chunk returned, entry kept. -/
theorem getChunk_mid (s : StoredResult) (i : Nat)
    (h : i * MAX_MESSAGE_SIZE + MAX_MESSAGE_SIZE < s.data.length) :
    handleGetResultChunk (some s) i =
      .ok (((s.data.drop (i * MAX_MESSAGE_SIZE)).take MAX_MESSAGE_SIZE, false),
        some s) := by
  unfold handleGetResultChunk
  dsimp only
  rw [take_min_norm]
  have hlast : ¬ s.data.length ≤ min (i * MAX_MESSAGE_SIZE + MAX_MESSAGE_SIZE)
      s.data.length := by omega
  rw [if_neg hlast, decide_eq_false hlast]

/-- A pull reaching (or past) the end of the stored data: `isLast` is set
and the entry is deleted. -/
theorem getChunk_last (s : StoredResult) (i : Nat)
    (h : s.data.length ≤ i * MAX_MESSAGE_SIZE + MAX_MESSAGE_SIZE) :
    handleGetResultChunk (some s) i =
      .ok (((s.data.drop (i * MAX_MESSAGE_SIZE)).take MAX_MESSAGE_SIZE, true),
        none) := by
  unfold handleGetResultChunk
  dsimp only
  rw [take_min_norm]
  have hlast : s.data.length ≤ min (i * MAX_MESSAGE_SIZE + MAX_MESSAGE_SIZE)
      s.data.length := by omega
  rw [if_pos hlast, decide_eq_true hlast]

/-- Draining a run of strictly-interior indices returns their chunks and
keeps the entry alive. -/
theorem drain_mid (s : StoredResult) (idxs : List Nat)
    (h : ∀ i ∈ idxs, i * MAX_MESSAGE_SIZE + MAX_MESSAGE_SIZE < s.data.length) :
    drainResult (some s) idxs =
      (idxs.map (fun i =>
        .ok ((s.data.drop (i * MAX_MESSAGE_SIZE)).take MAX_MESSAGE_SIZE, false)),
       some s) := by
  induction idxs with
  | nil => rfl
  | cons i rest ih =>
    rw [List.map_cons]
    have hmem := getChunk_mid s i (h i (List.mem_cons_self _ _))
    simp only [drainResult, hmem]
    rw [ih (fun j hj => h j (List.mem_cons_of_mem _ hj))]

theorem drainResult_append (st : Option StoredResult) (l1 l2 : List Nat) :
    drainResult st (l1 ++ l2) =
      ((drainResult st l1).1 ++ (drainResult (drainResult st l1).2 l2).1,
       (drainResult (drainResult st l1).2 l2).2) := by
  induction l1 generalizing st with
  | nil => simp [drainResult]
  | cons i rest ih =>
    simp only [List.cons_append, drainResult]
    cases hc : handleGetResultChunk st i with
    | error e =>
        simp only [List.append_eq, ih]
        rfl
    | ok p =>
        simp only [List.append_eq, ih]
        rfl

/-- C6, stored-result single drain: a stored over-ceiling result is fully
drained by pulling chunks `0 .. totalChunks-1` exactly once (every pull
succeeds, and their chunks concatenate back to the stored data); the entry
survives all pulls before the last, is destroyed exactly when the final
chunk is pulled, and any subsequent pull under the same result identifier
fails with the not-found error. -/
theorem stored_result_single_drain (s : StoredResult)
    (h : MAX_MESSAGE_SIZE < s.data.length) :
    (∀ o ∈ (drainResult (some s) (List.range
        (ceilDiv s.data.length MAX_MESSAGE_SIZE))).1, ∃ c l, o = .ok (c, l)) ∧
    (drainResult (some s) (List.range
        (ceilDiv s.data.length MAX_MESSAGE_SIZE - 1))).2 = some s ∧
    handleGetResultChunk (some s) (ceilDiv s.data.length MAX_MESSAGE_SIZE - 1) =
      .ok (((s.data.drop ((ceilDiv s.data.length MAX_MESSAGE_SIZE - 1) *
          MAX_MESSAGE_SIZE)).take MAX_MESSAGE_SIZE, true), none) ∧
    (drainResult (some s) (List.range
        (ceilDiv s.data.length MAX_MESSAGE_SIZE))).2 = none ∧
    (∀ j, handleGetResultChunk none j = .error "Result not found") ∧
    ((drainResult (some s) (List.range
        (ceilDiv s.data.length MAX_MESSAGE_SIZE))).1.map
      (fun o => match o with
        | .ok (c, _) => c
        | .error _ => ([] : List Nat))).flatten = s.data := by
  have hM : (1 : Nat) ≤ MAX_MESSAGE_SIZE := by unfold MAX_MESSAGE_SIZE; norm_num
  set tc := ceilDiv s.data.length MAX_MESSAGE_SIZE with htc
  have hlen1 : 1 ≤ s.data.length := by omega
  have hle : s.data.length ≤ tc * MAX_MESSAGE_SIZE :=
    ceilDiv_le_mul _ _ hM
  have htc1 : 1 ≤ tc := by
    by_contra hcon
    have h0 : tc = 0 := by omega
    rw [h0, Nat.zero_mul] at hle
    omega
  have hpred : (tc - 1) * MAX_MESSAGE_SIZE < s.data.length :=
    lt_ceilDiv_pred_mul _ _ hM hlen1
  have heq : (tc - 1) * MAX_MESSAGE_SIZE + MAX_MESSAGE_SIZE =
      tc * MAX_MESSAGE_SIZE := by
    have h1 : tc - 1 + 1 = tc := by omega
    calc (tc - 1) * MAX_MESSAGE_SIZE + MAX_MESSAGE_SIZE
        = (tc - 1 + 1) * MAX_MESSAGE_SIZE := by ring
    _ = tc * MAX_MESSAGE_SIZE := by rw [h1]
  have hmid : ∀ i ∈ List.range (tc - 1),
      i * MAX_MESSAGE_SIZE + MAX_MESSAGE_SIZE < s.data.length := by
    intro i hi
    have hi2 : i < tc - 1 := List.mem_range.mp hi
    have h1 : (i + 1) * MAX_MESSAGE_SIZE ≤ (tc - 1) * MAX_MESSAGE_SIZE :=
      Nat.mul_le_mul_right _ (by omega)
    calc i * MAX_MESSAGE_SIZE + MAX_MESSAGE_SIZE
        = (i + 1) * MAX_MESSAGE_SIZE := by ring
    _ ≤ (tc - 1) * MAX_MESSAGE_SIZE := h1
    _ < s.data.length := hpred
  have hrange : List.range tc = List.range (tc - 1) ++ [tc - 1] := by
    conv_lhs => rw [show tc = (tc - 1) + 1 by omega]
    exact List.range_succ (tc - 1)
  have hdmid := drain_mid s (List.range (tc - 1)) hmid
  have hpull := getChunk_last s (tc - 1) (by rw [heq]; exact hle)
  have hsingle : drainResult (some s) [tc - 1] =
      ([.ok ((s.data.drop ((tc - 1) * MAX_MESSAGE_SIZE)).take MAX_MESSAGE_SIZE,
        true)], none) := by
    simp only [drainResult, hpull]
  have hfull : drainResult (some s) (List.range tc) =
      ((List.range (tc - 1)).map (fun i =>
          .ok ((s.data.drop (i * MAX_MESSAGE_SIZE)).take MAX_MESSAGE_SIZE, false)) ++
        [.ok ((s.data.drop ((tc - 1) * MAX_MESSAGE_SIZE)).take MAX_MESSAGE_SIZE,
          true)], none) := by
    rw [hrange, drainResult_append, hdmid]
    simp only [hsingle]
  refine ⟨?_, ?_, hpull, ?_, fun j => rfl, ?_⟩
  · intro o ho
    rw [hfull] at ho
    simp only [List.mem_append, List.mem_map, List.mem_singleton] at ho
    rcases ho with ⟨i, _, rfl⟩ | rfl
    · exact ⟨_, _, rfl⟩
    · exact ⟨_, _, rfl⟩
  · rw [hdmid]
  · rw [hfull]
  · rw [hfull]
    simp only [List.map_append, List.map_map, List.map_cons, List.map_nil]
    have hcomp : ((fun (o : Except String (List Nat × Bool)) => match o with
        | Except.ok (c, _) => c
        | Except.error _ => ([] : List Nat)) ∘ (fun i =>
          Except.ok ((s.data.drop (i * MAX_MESSAGE_SIZE)).take MAX_MESSAGE_SIZE,
            false))) = fun i =>
          (s.data.drop (i * MAX_MESSAGE_SIZE)).take MAX_MESSAGE_SIZE := rfl
    rw [hcomp]
    have hch : (List.range tc).map (fun i =>
        (s.data.drop (i * MAX_MESSAGE_SIZE)).take MAX_MESSAGE_SIZE) =
        chunkData s.data MAX_MESSAGE_SIZE := (chunkData_eq_take _ _).symm
    rw [hrange, List.map_append, List.map_cons, List.map_nil] at hch
    rw [hch]
    exact join_chunkData s.data MAX_MESSAGE_SIZE hM

theorem stored_result_single_drain_witness :
    MAX_MESSAGE_SIZE < (StoredResult.single
      (List.replicate (MAX_MESSAGE_SIZE + 1) 0) "video/mp4").data.length ∧
    (drainResult (some (StoredResult.single
        (List.replicate (MAX_MESSAGE_SIZE + 1) 0) "video/mp4"))
      (List.range (ceilDiv (StoredResult.single
        (List.replicate (MAX_MESSAGE_SIZE + 1) 0) "video/mp4").data.length
        MAX_MESSAGE_SIZE))).2 = none := by
  have hlt : MAX_MESSAGE_SIZE < (StoredResult.single
      (List.replicate (MAX_MESSAGE_SIZE + 1) 0) "video/mp4").data.length := by
    show MAX_MESSAGE_SIZE < (List.replicate (MAX_MESSAGE_SIZE + 1) 0).length
    rw [List.length_replicate]
    omega
  exact ⟨hlt, (stored_result_single_drain _ hlt).2.2.2.1⟩

/-- C9, implicit: an out-of-range result pull is destructive, not an error.
For a stored result of length `L` and any `chunkIndex` with
`chunkIndex * ceiling ≥ L`, the pull returns an empty chunk with
`isLast = true` and deletes the stored entry rather than failing, so each
later pull under the same result identifier hits the not-found error. -/
theorem out_of_range_pull_destructive (s : StoredResult) (idx : Nat)
    (h : s.data.length ≤ idx * MAX_MESSAGE_SIZE) :
    handleGetResultChunk (some s) idx = .ok (([], true), none) ∧
    (∀ j, handleGetResultChunk none j = .error "Result not found") := by
  refine ⟨?_, fun j => rfl⟩
  rw [getChunk_last s idx (by omega)]
  rw [List.drop_eq_nil_of_le h, List.take_nil]

theorem out_of_range_pull_destructive_witness :
    (StoredResult.single [5] "video/mp4").data.length ≤ 1 * MAX_MESSAGE_SIZE ∧
    handleGetResultChunk (some (StoredResult.single [5] "video/mp4")) 1 =
      .ok (([], true), none) := by
  have hle : (StoredResult.single [5] "video/mp4").data.length ≤
      1 * MAX_MESSAGE_SIZE := by
    show (1 : Nat) ≤ 1 * MAX_MESSAGE_SIZE
    unfold MAX_MESSAGE_SIZE
    norm_num
  exact ⟨hle, (out_of_range_pull_destructive _ 1 hle).1⟩

theorem nameLe_total (x y : List Nat) : nameLe x y = true ∨ nameLe y x = true := by
  induction x generalizing y with
  | nil => left; rfl
  | cons a as ih =>
    cases y with
    | nil => right; rfl
    | cons b bs =>
      by_cases hab : a < b
      · left
        simp [nameLe, hab]
      · by_cases hba : b < a
        · right
          simp [nameLe, hba]
        · have heq : a = b := by omega
          subst heq
          rcases ih bs with h | h
          · left
            simpa [nameLe, hab] using h
          · right
            simpa [nameLe, hab] using h

theorem nameLe_trans (x y z : List Nat) (h1 : nameLe x y = true)
    (h2 : nameLe y z = true) : nameLe x z = true := by
  induction x generalizing y z with
  | nil => rfl
  | cons a as ih =>
    cases y with
    | nil => simp [nameLe] at h1
    | cons b bs =>
      cases z with
      | nil => simp [nameLe] at h2
      | cons c cs =>
        simp only [nameLe] at h1 h2 ⊢
        by_cases hab : a < b
        · have hac : a < c := by
            by_cases hbc : b < c
            · omega
            · by_cases hcb : c < b
              · rw [if_neg hbc, if_pos hcb] at h2
                cases h2
              · omega
          rw [if_pos hac]
        · by_cases hba : b < a
          · rw [if_neg hab, if_pos hba] at h1
            cases h1
          · have heq : a = b := by omega
            subst heq
            rw [if_neg hab, if_neg hba] at h1
            by_cases hbc : a < c
            · rw [if_pos hbc]
            · by_cases hcb : c < a
              · rw [if_neg hbc, if_pos hcb] at h2
                cases h2
              · rw [if_neg hbc, if_neg hcb] at h2
                rw [if_neg hbc, if_neg hcb]
                exact ih bs cs h1 h2

theorem nameLe_antisymm (x y : List Nat) (h1 : nameLe x y = true)
    (h2 : nameLe y x = true) : x = y := by
  induction x generalizing y with
  | nil =>
    cases y with
    | nil => rfl
    | cons b bs => simp [nameLe] at h2
  | cons a as ih =>
    cases y with
    | nil => simp [nameLe] at h1
    | cons b bs =>
      simp only [nameLe] at h1 h2
      by_cases hab : a < b
      · rw [if_neg (by omega : ¬ b < a), if_pos hab] at h2
        cases h2
      · by_cases hba : b < a
        · rw [if_neg hab, if_pos hba] at h1
          cases h1
        · have heq : a = b := by omega
          subst heq
          rw [if_neg hab, if_neg hba] at h1 h2
          rw [ih bs h1 h2]

theorem insertByName_perm (x : ZipEntry) (l : List ZipEntry) :
    List.Perm (insertByName x l) (x :: l) := by
  induction l with
  | nil => exact List.Perm.refl _
  | cons y ys ih =>
    unfold insertByName
    by_cases h : nameLe x.name y.name = true
    · rw [if_pos h]
    · rw [if_neg h]
      exact (ih.cons y).trans (List.Perm.swap x y ys)

theorem sortByName_perm (l : List ZipEntry) : List.Perm (sortByName l) l := by
  induction l with
  | nil => exact List.Perm.refl _
  | cons x xs ih => exact (insertByName_perm x _).trans (ih.cons x)

theorem insertByName_sorted (x : ZipEntry) (l : List ZipEntry)
    (h : l.Pairwise (fun a b => nameLe a.name b.name = true)) :
    (insertByName x l).Pairwise (fun a b => nameLe a.name b.name = true) := by
  induction l with
  | nil => simp [insertByName]
  | cons y ys ih =>
    unfold insertByName
    rcases List.pairwise_cons.mp h with ⟨hy, hys⟩
    by_cases hxy : nameLe x.name y.name = true
    · rw [if_pos hxy]
      refine List.pairwise_cons.mpr ⟨?_, h⟩
      intro z hz
      rcases List.mem_cons.mp hz with rfl | hz2
      · exact hxy
      · exact nameLe_trans _ _ _ hxy (hy z hz2)
    · rw [if_neg hxy]
      have hyx : nameLe y.name x.name = true :=
        (nameLe_total x.name y.name).resolve_left hxy
      refine List.pairwise_cons.mpr ⟨?_, ih hys⟩
      intro z hz
      have hz2 := (insertByName_perm x ys).mem_iff.mp hz
      rcases List.mem_cons.mp hz2 with rfl | hz3
      · exact hyx
      · exact hy z hz3

theorem sortByName_sorted (l : List ZipEntry) :
    (sortByName l).Pairwise (fun a b => nameLe a.name b.name = true) := by
  induction l with
  | nil => exact List.Pairwise.nil
  | cons x xs ih => exact insertByName_sorted x _ ih

/-- Two sorted lists of entries with pairwise-distinct names that are
permutations of each other are equal. -/
theorem sorted_nodup_unique (l1 : List ZipEntry) :
    ∀ (l2 : List ZipEntry), List.Perm l1 l2 →
    (l1.map ZipEntry.name).Nodup →
    l1.Pairwise (fun a b => nameLe a.name b.name = true) →
    l2.Pairwise (fun a b => nameLe a.name b.name = true) → l1 = l2 := by
  induction l1 with
  | nil =>
    intro l2 hp _ _ _
    exact hp.nil_eq
  | cons x xs ih =>
    intro l2 hp hnd h1 h2
    cases l2 with
    | nil => exact (List.cons_ne_nil x xs (List.perm_nil.mp hp)).elim
    | cons y ys =>
      rcases List.pairwise_cons.mp h1 with ⟨hx1, hxs⟩
      rcases List.pairwise_cons.mp h2 with ⟨hy2, hys⟩
      simp only [List.map_cons, List.nodup_cons] at hnd
      have hxy : x = y := by
        have hxmem : x ∈ y :: ys := hp.mem_iff.mp (List.mem_cons_self x xs)
        rcases List.mem_cons.mp hxmem with h | hxys
        · exact h
        · have hymem : y ∈ x :: xs := hp.mem_iff.mpr (List.mem_cons_self y ys)
          rcases List.mem_cons.mp hymem with h | hyxs
          · exact h.symm
          · have ha : nameLe x.name y.name = true := hx1 y hyxs
            have hb : nameLe y.name x.name = true := hy2 x hxys
            have hname : x.name = y.name := nameLe_antisymm _ _ ha hb
            exact absurd (by rw [hname]; exact List.mem_map_of_mem ZipEntry.name hyxs)
              hnd.1
      subst hxy
      rw [ih ys hp.cons_inv hnd.2 hxs hys]

theorem sortByName_eq_of_perm (l1 l2 : List ZipEntry)
    (hp : List.Perm l1 l2) (hnd : (l1.map ZipEntry.name).Nodup) :
    sortByName l1 = sortByName l2 :=
  sorted_nodup_unique _ _
    ((sortByName_perm l1).trans (hp.trans (sortByName_perm l2).symm))
    (((sortByName_perm l1).map ZipEntry.name).nodup_iff.mpr hnd)
    (sortByName_sorted l1) (sortByName_sorted l2)

theorem processEntry_name (ffmpegRun : List Nat → List Nat) (e : ZipEntry) :
    (processEntry ffmpegRun e).name = e.name := by
  unfold processEntry
  dsimp only
  split <;> rfl

theorem extractZip_eq_err (ffmpegRun : List Nat → List Nat)
    (files : List ZipEntry) (h : files.filter isRecognizedEntry = []) :
    extractZipFromData ffmpegRun files = .error "No video file found in ZIP" := by
  simp only [extractZipFromData, h]
  rfl

theorem extractZip_eq_single (ffmpegRun : List Nat → List Nat)
    (files : List ZipEntry) (e : ZipEntry)
    (h : files.filter isRecognizedEntry = [e]) :
    extractZipFromData ffmpegRun files =
      .ok (.single (processEntry ffmpegRun e).base64
        (processEntry ffmpegRun e).mimeType) := by
  simp only [extractZipFromData, h]
  rfl

theorem extractZip_eq_multi (ffmpegRun : List Nat → List Nat)
    (files : List ZipEntry)
    (h2 : 2 ≤ (files.filter isRecognizedEntry).length) :
    extractZipFromData ffmpegRun files =
      .ok (.multiple ((sortByName (files.filter isRecognizedEntry)).map
        (processEntry ffmpegRun))) := by
  obtain ⟨a, rest1, hfa⟩ : ∃ a r, files.filter isRecognizedEntry = a :: r := by
    cases hf : files.filter isRecognizedEntry with
    | nil =>
      rw [hf] at h2
      simp at h2
    | cons a r => exact ⟨a, r, rfl⟩
  obtain ⟨s1, s2, srest, hs⟩ : ∃ s1 s2 sr,
      sortByName (files.filter isRecognizedEntry) = s1 :: s2 :: sr := by
    have hlen : (sortByName (files.filter isRecognizedEntry)).length =
        (files.filter isRecognizedEntry).length :=
      (sortByName_perm _).length_eq
    rw [hfa] at hlen h2 ⊢
    cases hso : sortByName (a :: rest1) with
    | nil =>
      exfalso
      rw [hso] at hlen
      simp only [List.length_nil, List.length_cons] at hlen
      omega
    | cons s1 stail =>
      cases stail with
      | nil =>
        exfalso
        rw [hso] at hlen
        simp only [List.length_nil, List.length_cons] at hlen h2
        omega
      | cons s2 sr => exact ⟨s1, s2, sr, rfl⟩
  rw [hfa] at hs
  simp only [extractZipFromData, hfa, hs, List.map_cons]
  rfl

/-- C8, name-sorted multi-media order: for an archive payload containing at
least two recognized media entries (with the entry names pairwise distinct,
as keys of `zip.files` are), extraction from bytes returns the multi-media
shape whose items carry exactly the recognized entries' names in
name-sorted order, and the result is invariant under any permutation of the
archive's internal entry order. -/
theorem name_sorted_multi_order (ffmpegRun : List Nat → List Nat)
    (files files2 : List ZipEntry)
    (hcount : 2 ≤ (files.filter isRecognizedEntry).length)
    (hnd : (files.map ZipEntry.name).Nodup)
    (hperm : List.Perm files2 files) :
    (∃ vids, extractZipFromData ffmpegRun files = .ok (.multiple vids) ∧
      List.Perm (vids.map Video.name)
        ((files.filter isRecognizedEntry).map ZipEntry.name) ∧
      (vids.map Video.name).Pairwise (fun a b => nameLe a b = true)) ∧
    extractZipFromData ffmpegRun files2 = extractZipFromData ffmpegRun files := by
  have hsub : ((files.filter isRecognizedEntry).map ZipEntry.name).Sublist
      (files.map ZipEntry.name) :=
    List.Sublist.map ZipEntry.name
      (List.filter_sublist files :
        (files.filter isRecognizedEntry).Sublist files)
  have hfnd : ((files.filter isRecognizedEntry).map ZipEntry.name).Nodup :=
    List.Nodup.sublist hsub hnd
  have hnames : ((sortByName (files.filter isRecognizedEntry)).map
      (processEntry ffmpegRun)).map Video.name =
      (sortByName (files.filter isRecognizedEntry)).map ZipEntry.name := by
    rw [List.map_map]
    exact List.map_congr_left fun e _ => processEntry_name ffmpegRun e
  refine ⟨⟨(sortByName (files.filter isRecognizedEntry)).map (processEntry ffmpegRun),
    extractZip_eq_multi ffmpegRun files hcount, ?_, ?_⟩, ?_⟩
  · rw [hnames]
    exact (sortByName_perm _).map ZipEntry.name
  · rw [hnames]
    exact List.Pairwise.map ZipEntry.name (fun a b h => h) (sortByName_sorted _)
  · have hpf : List.Perm (files2.filter isRecognizedEntry)
        (files.filter isRecognizedEntry) := hperm.filter isRecognizedEntry
    have hc2 : 2 ≤ (files2.filter isRecognizedEntry).length := by
      rw [hpf.length_eq]
      exact hcount
    have hnd2 : ((files2.filter isRecognizedEntry).map ZipEntry.name).Nodup :=
      ((hpf.map ZipEntry.name).nodup_iff).mpr hfnd
    rw [extractZip_eq_multi ffmpegRun files hcount,
      extractZip_eq_multi ffmpegRun files2 hc2,
      sortByName_eq_of_perm _ _ hpf hnd2]

theorem name_sorted_multi_order_witness :
    (2 ≤ (List.filter isRecognizedEntry
        [⟨str "b.mp4", false, [1]⟩, ⟨str "a.avi", false, [2]⟩]).length ∧
      (List.map ZipEntry.name
        [⟨str "b.mp4", false, [1]⟩, ⟨str "a.avi", false, [2]⟩]).Nodup) ∧
    (∃ vids, extractZipFromData id
        [⟨str "b.mp4", false, [1]⟩, ⟨str "a.avi", false, [2]⟩] =
          .ok (.multiple vids) ∧
      List.Perm (vids.map Video.name)
        ((List.filter isRecognizedEntry
          [⟨str "b.mp4", false, [1]⟩, ⟨str "a.avi", false, [2]⟩]).map
            ZipEntry.name) ∧
      (vids.map Video.name).Pairwise (fun a b => nameLe a b = true)) ∧
    extractZipFromData id [⟨str "a.avi", false, [2]⟩, ⟨str "b.mp4", false, [1]⟩] =
      extractZipFromData id
        [⟨str "b.mp4", false, [1]⟩, ⟨str "a.avi", false, [2]⟩] := by
  have h := name_sorted_multi_order id
    [⟨str "b.mp4", false, [1]⟩, ⟨str "a.avi", false, [2]⟩]
    [⟨str "a.avi", false, [2]⟩, ⟨str "b.mp4", false, [1]⟩]
    (by decide) (by decide) (by decide)
  exact ⟨⟨by decide, by decide⟩, h.1, h.2⟩

/-- C10, implicit single-entry collapse: when extraction from bytes finds
exactly one recognized media entry it returns the single-media shape
`{base64, mimeType}` with the entry's name discarded — never a one-item
multi-media list; the multi-media shape is produced exactly when at least
two recognized entries are found. -/
theorem single_entry_collapse (ffmpegRun : List Nat → List Nat)
    (files : List ZipEntry) :
    ((files.filter isRecognizedEntry).length = 1 →
      ∃ e, files.filter isRecognizedEntry = [e] ∧
        extractZipFromData ffmpegRun files =
          .ok (.single (processEntry ffmpegRun e).base64
            (processEntry ffmpegRun e).mimeType)) ∧
    (∀ vids, extractZipFromData ffmpegRun files = .ok (.multiple vids) →
      2 ≤ (files.filter isRecognizedEntry).length) ∧
    (2 ≤ (files.filter isRecognizedEntry).length →
      ∃ vids, extractZipFromData ffmpegRun files = .ok (.multiple vids)) := by
  refine ⟨fun h1 => ?_, fun vids hv => ?_, fun h2 =>
    ⟨_, extractZip_eq_multi ffmpegRun files h2⟩⟩
  · obtain ⟨e, he⟩ : ∃ e, files.filter isRecognizedEntry = [e] := by
      cases hf : files.filter isRecognizedEntry with
      | nil => rw [hf] at h1; simp at h1
      | cons a r =>
        rw [hf] at h1
        simp only [List.length_cons] at h1
        have : r = [] := List.length_eq_zero.mp (by omega)
        exact ⟨a, by rw [this]⟩
    exact ⟨e, he, extractZip_eq_single ffmpegRun files e he⟩
  · by_contra hcon
    have hle : (files.filter isRecognizedEntry).length = 0 ∨
        (files.filter isRecognizedEntry).length = 1 := by omega
    rcases hle with h0 | h1
    · rw [extractZip_eq_err ffmpegRun files (List.length_eq_zero.mp h0)] at hv
      cases hv
    · obtain ⟨e, he⟩ : ∃ e, files.filter isRecognizedEntry = [e] := by
        cases hf : files.filter isRecognizedEntry with
        | nil => rw [hf] at h1; simp at h1
        | cons a r =>
          rw [hf] at h1
          simp only [List.length_cons] at h1
          have : r = [] := List.length_eq_zero.mp (by omega)
          exact ⟨a, by rw [this]⟩
      rw [extractZip_eq_single ffmpegRun files e he] at hv
      simp at hv

theorem single_entry_collapse_witness :
    (List.filter isRecognizedEntry [⟨str "b.mp4", false, [9]⟩]).length = 1 ∧
    (∃ e, List.filter isRecognizedEntry [⟨str "b.mp4", false, [9]⟩] = [e] ∧
      extractZipFromData id [⟨str "b.mp4", false, [9]⟩] =
        .ok (.single (processEntry id e).base64 (processEntry id e).mimeType)) :=
  ⟨by decide, (single_entry_collapse id [⟨str "b.mp4", false, [9]⟩]).1 (by decide)⟩

end SVP
